import Mathlib

/-!
Verification development for the `shotlogger` screenshot retention-and-upload
program (`app.py`). The Python source is shallowly embedded: pure helpers
become Lean functions, the filesystem is an explicit list of file entries,
and the remote MEGA client is an explicit record of oracle functions whose
`Option`/`Bool` results model exceptions and failures. Strings are modelled
as `List Char` so that splitting and formatting are easy to reason about.
-/

set_option autoImplicit false

namespace Shotlogger

/-- Calendar date, as produced by Python's `datetime` (always a valid date
when built by `strptime`/`fromtimestamp`). -/
structure Date where
  year : Nat
  month : Nat
  day : Nat
deriving DecidableEq

/-- Filesystem path, split as pathlib does into the directory part and the
final component (`Path.name`). `Path.stem` is computed from `base`. -/
structure FPath where
  dir : List Char
  base : List Char
deriving DecidableEq

/-- One file on disk: its path, size in bytes (`stat().st_size`) and
modification time (`stat().st_mtime`). -/
structure FileEntry where
  path : FPath
  size : Nat
  mtime : Int
deriving DecidableEq

/-- The local filesystem under the screenshot root folder, as enumerated by
`folder.rglob("*")`: the list of all files (directories are irrelevant to
the embedded code, which filters on `is_file()`). -/
abbrev FS := List FileEntry

/-- Decimal digit character, as printed by `%d`-style formatting. -/
def digChar : Nat → Char
  | 0 => '0' | 1 => '1' | 2 => '2' | 3 => '3' | 4 => '4'
  | 5 => '5' | 6 => '6' | 7 => '7' | 8 => '8' | _ => '9'

/-- Numeric value of a decimal digit character (`int` on one char). -/
def digVal (c : Char) : Nat := c.toNat - 48

/-- Two-digit zero-padded decimal rendering, as `strftime("%d")` and
`strftime("%m")` produce for the (always `< 100`) day and month fields. -/
def pad2 (n : Nat) : List Char := [digChar (n / 10), digChar (n % 10)]

/-- Four-digit rendering of the year, as `strftime("%Y")` produces for the
years representable here (`strptime`'s `%Y` reads exactly four digits). -/
def pad4 (n : Nat) : List Char :=
  [digChar (n / 1000), digChar (n / 100 % 10), digChar (n / 10 % 10), digChar (n % 10)]

/-- Model of `dt.strftime("%d-%m-%Y")`, the day-folder key format. -/
def strftimeDMY (d : Date) : List Char :=
  pad2 d.day ++ '-' :: pad2 d.month ++ '-' :: pad4 d.year

/-- Gregorian leap-year rule used by Python's `datetime`. -/
def isLeap (y : Nat) : Bool :=
  y % 4 = 0 && (y % 100 != 0 || y % 400 = 0)

/-- Days in a month, as validated by the `datetime` constructor. -/
def daysInMonth (y m : Nat) : Nat :=
  if m = 2 then (if isLeap y then 29 else 28)
  else if m = 4 ∨ m = 6 ∨ m = 9 ∨ m = 11 then 30
  else 31

/-- Month match for `strptime`'s two-character month alternatives
`1[0-2]` and `0[1-9]` (tried in this order by the compiled regex). -/
def month2 (a b : Char) : Option Nat :=
  if a = '1' ∧ (b = '0' ∨ b = '1' ∨ b = '2') then some (10 + digVal b)
  else if a = '0' ∧ b.isDigit ∧ ¬b = '0' then some (digVal b)
  else none

/-- Month match for `strptime`'s one-character month alternative `[1-9]`. -/
def month1 (a : Char) : Option Nat :=
  if a.isDigit ∧ ¬a = '0' then some (digVal a) else none

/-- Day match for `strptime`'s two-character day alternatives
`3[01]`, `[12]\d` and `0[1-9]`. -/
def day2 (a b : Char) : Option Nat :=
  if a = '3' ∧ (b = '0' ∨ b = '1') then some (30 + digVal b)
  else if (a = '1' ∨ a = '2') ∧ b.isDigit then some (10 * digVal a + digVal b)
  else if a = '0' ∧ b.isDigit ∧ ¬b = '0' then some (digVal b)
  else none

/-- Day match for `strptime`'s one-character day alternative `[1-9]`. -/
def day1 (a : Char) : Option Nat :=
  if a.isDigit ∧ ¬a = '0' then some (digVal a) else none

/-- Model of how `strptime`'s compiled regex consumes `%m%d` after the year,
with the regex's backtracking: the month tries its two-character
alternatives first and falls back to one digit, and the whole remainder
must be consumed (Python rejects unconverted trailing data). The remainder
therefore has 2, 3 or 4 characters. -/
def parseMD : List Char → Option (Nat × Nat)
  | [a, b] =>
    match month1 a, day1 b with
    | some m, some d => some (m, d)
    | _, _ => none
  | [a, b, c] =>
    match month2 a b, day1 c with
    | some m, some d => some (m, d)
    | _, _ =>
      match month1 a, day2 b c with
      | some m, some d => some (m, d)
      | _, _ => none
  | [a, b, c, d] =>
    match month2 a b, day2 c d with
    | some m, some dd => some (m, dd)
    | _, _ => none
  | _ => none

/-- Model of `datetime.strptime(s, "%Y%m%d")`: `%Y` reads exactly four
digits, `%m%d` consume the rest (see `parseMD`), and the resulting fields
must form a valid `datetime` (year at least `MINYEAR = 1`, day within the
month). Returns `none` where Python raises `ValueError`. -/
def strptimeYmd (cs : List Char) : Option Date :=
  match cs with
  | c1 :: c2 :: c3 :: c4 :: rest =>
    if c1.isDigit ∧ c2.isDigit ∧ c3.isDigit ∧ c4.isDigit then
      let y := 1000 * digVal c1 + 100 * digVal c2 + 10 * digVal c3 + digVal c4
      match parseMD rest with
      | some (m, d) =>
        if 1 ≤ y ∧ d ≤ daysInMonth y m then some ⟨y, m, d⟩ else none
      | none => none
    else none
  | _ => none

/-- Model of Python's `str.split(sep)` for a one-character separator:
keeps empty fields and returns `[s]` when the separator is absent. -/
def splitOnChar (sep : Char) : List Char → List (List Char)
  | [] => [[]]
  | c :: cs =>
    if c = sep then [] :: splitOnChar sep cs
    else (splitOnChar sep cs).modifyHead (fun r => c :: r)

/-- Splits a name at its last `'.'`: returns the parts before and after
that dot, or `none` when there is no dot. Helper for `stem`. -/
def splitAtLastDot : List Char → Option (List Char × List Char)
  | [] => none
  | c :: cs =>
    match splitAtLastDot cs with
    | some (a, b) => some (c :: a, b)
    | none => if c = '.' then some ([], cs) else none

/-- Model of `pathlib`'s `Path.stem` on the final component: the name
without its last suffix, where a suffix exists only if the last dot is
neither the first nor the last character. -/
def stem (name : List Char) : List Char :=
  match splitAtLastDot name with
  | some (a, b) => if a = [] ∨ b = [] then name else a
  | none => name

/-- Model of `get_day_folder_name_for_path` (app.py:195-213). The
modification-time argument `mtDate` stands for
`datetime.fromtimestamp(path.stat().st_mtime)`'s calendar date, the
platform-local conversion being outside the embedded code; it is consulted
only on the fallback branch, exactly as the code only calls `stat()` there. -/
def get_day_folder_name_for_path (path : FPath) (mtDate : Date) : List Char :=
  match splitOnChar '_' (stem path.base) with
  | _ :: p1 :: _ =>
    match strptimeYmd p1 with
    | some dt => strftimeDMY dt
    | none => strftimeDMY mtDate
  | _ => strftimeDMY mtDate

/-- First file entry with the given path, modelling both `path.exists()`
and `path.stat()` lookups on the explicit filesystem. -/
def findEntry : FS → FPath → Option FileEntry
  | [], _ => none
  | e :: fs, p => if e.path = p then some e else findEntry fs p

/-- Model of `path.exists()` against the explicit filesystem. -/
def pathExists (fs : FS) (p : FPath) : Bool := (findEntry fs p).isSome

/-- Model of `path.unlink()`: the entry with this path is removed. -/
def unlinkFs : FS → FPath → FS
  | [], _ => []
  | e :: fs, p => if e.path = p then unlinkFs fs p else e :: unlinkFs fs p

/-- Total size in bytes of all files under the folder, the accumulation in
`get_folder_size_mb` (app.py:92-101). -/
def totalBytes (fs : FS) : Nat := fs.foldl (fun a e => a + e.size) 0

/-- Model of `get_folder_size_mb` (app.py:92-101): `total_bytes / (1024 * 1024)`,
with Python's float division embedded as exact rational division. -/
def get_folder_size_mb (fs : FS) : ℚ := (totalBytes fs : ℚ) / (1024 * 1024)

/-- Stable insertion (ascending modification time) used by `sortEntries`. -/
def insertByMtime (e : FileEntry) : List FileEntry → List FileEntry
  | [] => [e]
  | f :: fs => if e.mtime ≤ f.mtime then e :: f :: fs else f :: insertByMtime e fs

/-- Model of `files.sort(key=lambda f: f.stat().st_mtime)` (app.py:128-129):
a stable ascending sort of the enumerated files by modification time. -/
def sortEntries (fs : FS) : List FileEntry := fs.foldr insertByMtime []

/-- Result of a rotation pass: the filesystem afterwards and the number of
deletion (`unlink`) attempts performed. -/
structure RotRes where
  fs : FS
  dels : Nat
deriving DecidableEq

/-- The deletion loop of `rotate_screenshots` (app.py:131-144): walk the
pre-enumerated oldest-first list, skip protected paths, unlink the file,
recompute the folder size and stop as soon as it is at or below the limit.
The first list argument is the snapshot taken at app.py:128; the second is
the evolving filesystem. -/
def rotateLoop (maxSizeMb : ℚ) (prot : List FPath) : List FileEntry → FS → RotRes
  | [], fs => ⟨fs, 0⟩
  | f :: rest, fs =>
    if f.path ∈ prot then rotateLoop maxSizeMb prot rest fs
    else
      let fs1 := unlinkFs fs f.path
      if get_folder_size_mb fs1 ≤ maxSizeMb then ⟨fs1, 1⟩
      else
        let r := rotateLoop maxSizeMb prot rest fs1
        ⟨r.fs, r.dels + 1⟩

/-- Model of `rotate_screenshots` (app.py:104-144), also reporting the
number of deletion attempts. `prot` is the `protected` set; passing `none`
in Python just means the empty set, so the embedding takes the list
directly. -/
def rotateRun (fs : FS) (maxSizeMb : ℚ) (prot : List FPath) : RotRes :=
  if maxSizeMb ≤ 0 then ⟨fs, 0⟩
  else if get_folder_size_mb fs ≤ maxSizeMb then ⟨fs, 0⟩
  else rotateLoop maxSizeMb prot (sortEntries fs) fs

/-- Model of `rotate_screenshots` (app.py:104-144): the filesystem after
the rotation pass. -/
def rotate_screenshots (fs : FS) (maxSizeMb : ℚ) (prot : List FPath) : FS :=
  (rotateRun fs maxSizeMb prot).fs

/-- The list of files enumerated at app.py:128. The enumeration is only
reached when rotation is enabled and the folder is over the limit; on the
early-return branches no files are enumerated. -/
def rotateEnumerated (fs : FS) (maxSizeMb : ℚ) : List FileEntry :=
  if maxSizeMb ≤ 0 then []
  else if get_folder_size_mb fs ≤ maxSizeMb then []
  else sortEntries fs

/-- The rotation call the orchestrator makes each tick (app.py:384-388),
with the Pending Set as the protect-set. -/
def mainRotatePass (fs : FS) (maxSizeMb : ℚ) (pending : List FPath) : FS :=
  rotate_screenshots fs maxSizeMb pending

/-- The in-memory day-folder cache `mega_day_cache`: day key to node id. -/
abbrev Cache := List (List Char × List Char)

/-- First value stored under a key, modelling Python `dict` lookup for both
the cache and the `create_folder` response. -/
def lookupA : Cache → List Char → Option (List Char)
  | [], _ => none
  | e :: c, k => if e.1 = k then some e.2 else lookupA c k

/-- The remote MEGA client capabilities consumed by the embedded code.
`createFolder` returns the response `dict` on success and `none` where the
library raises; `upload` returns `false` where `mega_client.upload` raises. -/
structure MegaOps where
  createFolder : List Char → Option Cache
  upload : FPath → List Char → Bool

/-- Result of `ensure_mega_day_folder`: the returned node id (or `none`),
the cache afterwards, and whether a remote `create_folder` call was made. -/
structure EnsureRes where
  res : Option (List Char)
  cache : Cache
  called : Bool
deriving DecidableEq

/-- Model of `ensure_mega_day_folder` (app.py:216-258): return the cached
node id when present; otherwise issue one `create_folder` call for
`username/day_folder_name`, fail (returning `none`, cache untouched) when
the call raises or the response holds no truthy node id for the day key,
and cache the node id on success. -/
def ensure_mega_day_folder (ops : MegaOps) (username day_folder_name : List Char)
    (cache : Cache) : EnsureRes :=
  match lookupA cache day_folder_name with
  | some nid => ⟨some nid, cache, false⟩
  | none =>
    match ops.createFolder (username ++ '/' :: day_folder_name) with
    | none => ⟨none, cache, true⟩
    | some result =>
      match lookupA result day_folder_name with
      | none => ⟨none, cache, true⟩
      | some nid =>
        if nid = [] then ⟨none, cache, true⟩
        else ⟨some nid, (day_folder_name, nid) :: cache, true⟩

/-- A sequence of `ensure_mega_day_folder` calls within one run, returning
the final cache and the trace of remote `create_folder` calls as pairs of
the requested day key and whether the call succeeded. -/
def runEnsures (ops : MegaOps) (username : List Char) :
    List (List Char) → Cache → Cache × List (List Char × Bool)
  | [], cache => (cache, [])
  | k :: ks, cache =>
    let r := ensure_mega_day_folder ops username k cache
    let rest := runEnsures ops username ks r.cache
    (rest.1, (if r.called then [(k, r.res.isSome)] else []) ++ rest.2)

/-- Result of an upload batch: the list returned by the function, plus the
filesystem and cache afterwards. -/
structure BatchRes where
  uploaded : List FPath
  fs : FS
  cache : Cache
deriving DecidableEq

/-- The per-file loop of `upload_batch_to_mega` (app.py:284-319): a file
that no longer exists is appended to the result without any remote work; a
failed day-folder resolution or failed upload skips the file; a successful
upload unlinks the local copy and appends the file to the result.
`tsToDate` stands for the platform's `datetime.fromtimestamp` calendar-date
conversion used by the day-key fallback. -/
def uploadLoop (ops : MegaOps) (username : List Char) (tsToDate : Int → Date) :
    List FPath → FS → Cache → BatchRes
  | [], fs, cache => ⟨[], fs, cache⟩
  | p :: rest, fs, cache =>
    match findEntry fs p with
    | none =>
      let r := uploadLoop ops username tsToDate rest fs cache
      ⟨p :: r.uploaded, r.fs, r.cache⟩
    | some e =>
      let day := get_day_folder_name_for_path p (tsToDate e.mtime)
      let er := ensure_mega_day_folder ops username day cache
      match er.res with
      | none => uploadLoop ops username tsToDate rest fs er.cache
      | some nid =>
        if ops.upload p nid then
          let r := uploadLoop ops username tsToDate rest (unlinkFs fs p) er.cache
          ⟨p :: r.uploaded, r.fs, r.cache⟩
        else uploadLoop ops username tsToDate rest fs er.cache

/-- Model of `upload_batch_to_mega` (app.py:261-321): empty batch or absent
client returns an empty list with nothing changed; otherwise each pending
path is processed independently by `uploadLoop`. -/
def upload_batch_to_mega (client : Option MegaOps) (mega_username : List Char)
    (mega_day_cache : Cache) (pending_paths : List FPath)
    (tsToDate : Int → Date) (fs : FS) : BatchRes :=
  match client with
  | none => ⟨[], fs, mega_day_cache⟩
  | some ops =>
    if pending_paths = [] then ⟨[], fs, mega_day_cache⟩
    else uploadLoop ops mega_username tsToDate pending_paths fs mega_day_cache

/-- State after the orchestrator's upload-trigger step: the Pending Set,
filesystem, cache and client afterwards, whether the Upload Batcher ran,
and the list it returned. -/
structure StepRes where
  pending : List FPath
  fs : FS
  cache : Cache
  client : Option MegaOps
  ran : Bool
  uploaded : List FPath
deriving Inhabited

/-- Model of the orchestrator's upload trigger (app.py:390-403): when MEGA
is enabled and the Pending Set has reached the batch size, lazily
re-authenticate (`loginResult` is what `init_mega_client` would return),
and if a session exists run the Upload Batcher and drop exactly the
returned paths from the Pending Set, keeping the rest in order. -/
def mainUploadStep (megaEnabled : Bool) (uploadBatchSize : Nat)
    (loginResult : Option MegaOps) (client : Option MegaOps)
    (username : List Char) (cache : Cache) (pending : List FPath)
    (tsToDate : Int → Date) (fs : FS) : StepRes :=
  if megaEnabled = true ∧ uploadBatchSize ≤ pending.length then
    let client1 := match client with
      | none => loginResult
      | some c => some c
    match client1 with
    | none => ⟨pending, fs, cache, none, false, []⟩
    | some ops =>
      let r := upload_batch_to_mega (some ops) username cache pending tsToDate fs
      ⟨pending.filter (fun p => decide (¬p ∈ r.uploaded)), r.fs, r.cache,
        some ops, true, r.uploaded⟩
  else ⟨pending, fs, cache, client, false, []⟩

/-- The `create_folder` capability never yields a usable node id for this
day key: the remote call raises, or the response `dict` misses the key or
holds only a falsy (empty) node id. -/
def failsFor (ops : MegaOps) (username day : List Char) : Prop :=
  ∀ resp, ops.createFolder (username ++ '/' :: day) = some resp →
    lookupA resp day = none ∨ lookupA resp day = some []

/-! ### Concrete oracles and filesystems used by witnesses -/

/-- Remote client whose `create_folder` always answers with a node id for
the day key `02-01-2025` and whose uploads always succeed. -/
def witOpsOk : MegaOps :=
  ⟨fun _ => some [("02-01-2025".data, "n1".data)], fun _ _ => true⟩

/-- Remote client like `witOpsOk` except that uploading `d/c.png` raises. -/
def witOpsPartial : MegaOps :=
  ⟨fun _ => some [("02-01-2025".data, "n1".data)],
    fun p _ => decide (¬p = ⟨"d".data, "c.png".data⟩)⟩

/-- Remote client whose `create_folder` always answers with an empty dict,
so no day folder can ever be resolved. -/
def witOpsFail : MegaOps := ⟨fun _ => some [], fun _ _ => true⟩

/-- Modification-time date oracle used by witnesses: every timestamp falls
on 2025-01-02, so every fallback day key is `02-01-2025`. -/
def witTs : Int → Date := fun _ => ⟨2025, 1, 2⟩

/-- Witness paths for the upload-batch scenarios. -/
def witA : FPath := ⟨"d".data, "a.png".data⟩

/-- Second witness path; absent from the witness filesystem. -/
def witB : FPath := ⟨"d".data, "b.png".data⟩

/-- Third witness path; its upload fails under `witOpsPartial`. -/
def witC : FPath := ⟨"d".data, "c.png".data⟩

/-- Witness filesystem holding `witA` and `witC` but not `witB`. -/
def witFsAC : FS := [⟨witA, 1, 1⟩, ⟨witC, 1, 3⟩]

/-- Ten pending artifacts for the batch-of-ten orchestrator scenario. -/
def witPaths10 : List FPath :=
  [⟨[], "a0.png".data⟩, ⟨[], "a1.png".data⟩, ⟨[], "a2.png".data⟩,
    ⟨[], "a3.png".data⟩, ⟨[], "a4.png".data⟩, ⟨[], "a5.png".data⟩,
    ⟨[], "a6.png".data⟩, ⟨[], "a7.png".data⟩, ⟨[], "a8.png".data⟩,
    ⟨[], "a9.png".data⟩]

/-- Filesystem holding exactly the ten pending artifacts. -/
def witFs10 : FS := witPaths10.map (fun p => ⟨p, 1, 0⟩)

/-! ### Helper lemmas about the filesystem model -/

theorem findEntry_unlinkFs_ne (fs : FS) (p q : FPath) (h : ¬q = p) :
    findEntry (unlinkFs fs p) q = findEntry fs q := by
  induction fs with
  | nil => rfl
  | cons e fs ih =>
    by_cases he : e.path = p
    · have hq : ¬e.path = q := fun hx => h (by rw [← hx, he])
      rw [unlinkFs, if_pos he, findEntry, if_neg hq]
      exact ih
    · rw [unlinkFs, if_neg he, findEntry, findEntry]
      by_cases hq : e.path = q
      · rw [if_pos hq, if_pos hq]
      · rw [if_neg hq, if_neg hq]
        exact ih

theorem findEntry_unlinkFs_self (fs : FS) (p : FPath) :
    findEntry (unlinkFs fs p) p = none := by
  induction fs with
  | nil => rfl
  | cons e fs ih =>
    by_cases he : e.path = p
    · simp [unlinkFs, he, ih]
    · simp [unlinkFs, findEntry, he, ih]

theorem pathExists_unlinkFs_mono (fs : FS) (p q : FPath)
    (h : pathExists (unlinkFs fs p) q = true) : pathExists fs q = true := by
  by_cases hq : q = p
  · subst hq
    rw [pathExists, findEntry_unlinkFs_self] at h
    simp at h
  · rwa [pathExists, findEntry_unlinkFs_ne fs p q hq] at h

theorem findEntry_rotateLoop_protected (maxSizeMb : ℚ) (prot : List FPath)
    (p : FPath) (hp : p ∈ prot) :
    ∀ (files : List FileEntry) (fs : FS),
      findEntry (rotateLoop maxSizeMb prot files fs).fs p = findEntry fs p := by
  intro files
  induction files with
  | nil => intro fs; rfl
  | cons f rest ih =>
    intro fs
    by_cases hf : f.path ∈ prot
    · simp only [rotateLoop, if_pos hf]
      exact ih fs
    · have hne : ¬p = f.path := fun h => hf (h ▸ hp)
      simp only [rotateLoop, if_neg hf]
      by_cases hb : get_folder_size_mb (unlinkFs fs f.path) ≤ maxSizeMb
      · simp only [if_pos hb]
        exact findEntry_unlinkFs_ne fs f.path p hne
      · simp only [if_neg hb]
        rw [ih (unlinkFs fs f.path)]
        exact findEntry_unlinkFs_ne fs f.path p hne

theorem pathExists_rotateLoop_mono (maxSizeMb : ℚ) (prot : List FPath) :
    ∀ (files : List FileEntry) (fs : FS) (q : FPath),
      pathExists (rotateLoop maxSizeMb prot files fs).fs q = true →
      pathExists fs q = true := by
  intro files
  induction files with
  | nil => intro fs q h; exact h
  | cons f rest ih =>
    intro fs q h
    by_cases hf : f.path ∈ prot
    · simp only [rotateLoop, if_pos hf] at h
      exact ih fs q h
    · simp only [rotateLoop, if_neg hf] at h
      by_cases hb : get_folder_size_mb (unlinkFs fs f.path) ≤ maxSizeMb
      · simp only [if_pos hb] at h
        exact pathExists_unlinkFs_mono fs f.path q h
      · simp only [if_neg hb] at h
        exact pathExists_unlinkFs_mono fs f.path q (ih (unlinkFs fs f.path) q h)

theorem rotateLoop_spec (maxSizeMb : ℚ) (prot : List FPath) :
    ∀ (files : List FileEntry) (fs : FS),
      (rotateLoop maxSizeMb prot files fs).dels ≤ files.length ∧
      (get_folder_size_mb (rotateLoop maxSizeMb prot files fs).fs ≤ maxSizeMb ∨
        ∀ e ∈ files, ¬e.path ∈ prot →
          pathExists (rotateLoop maxSizeMb prot files fs).fs e.path = false) := by
  intro files
  induction files with
  | nil =>
    intro fs
    exact ⟨Nat.le_refl 0, Or.inr (by intro e he; cases he)⟩
  | cons f rest ih =>
    intro fs
    by_cases hf : f.path ∈ prot
    · simp only [rotateLoop, if_pos hf]
      refine ⟨Nat.le_succ_of_le (ih fs).1, ?_⟩
      rcases (ih fs).2 with h | h
      · exact Or.inl h
      · refine Or.inr ?_
        intro e he hep
        rcases List.mem_cons.mp he with rfl | he2
        · exact absurd hf hep
        · exact h e he2 hep
    · simp only [rotateLoop, if_neg hf]
      by_cases hb : get_folder_size_mb (unlinkFs fs f.path) ≤ maxSizeMb
      · simp only [if_pos hb]
        exact ⟨Nat.succ_le_succ (Nat.zero_le _), Or.inl hb⟩
      · simp only [if_neg hb]
        refine ⟨Nat.succ_le_succ (ih (unlinkFs fs f.path)).1, ?_⟩
        rcases (ih (unlinkFs fs f.path)).2 with h | h
        · exact Or.inl h
        · refine Or.inr ?_
          intro e he hep
          rcases List.mem_cons.mp he with rfl | he2
          · by_contra hx
            have h1 : pathExists (rotateLoop maxSizeMb prot rest (unlinkFs fs e.path)).fs e.path
                = true := by
              cases hv : pathExists (rotateLoop maxSizeMb prot rest (unlinkFs fs e.path)).fs e.path
              · exact absurd hv hx
              · rfl
            have h2 := pathExists_rotateLoop_mono maxSizeMb prot rest
              (unlinkFs fs e.path) e.path h1
            rw [pathExists, findEntry_unlinkFs_self] at h2
            simp at h2
          · exact h e he2 hep

theorem length_sortEntries (fs : FS) : (sortEntries fs).length = fs.length := by
  have hlen : ∀ (e : FileEntry) (l : List FileEntry),
      (insertByMtime e l).length = l.length + 1 := by
    intro e l
    induction l with
    | nil => rfl
    | cons f l ih =>
      by_cases h : e.mtime ≤ f.mtime
      · simp [insertByMtime, h]
      · simp [insertByMtime, h, ih]
  induction fs with
  | nil => rfl
  | cons e fs ih => simp [sortEntries, List.foldr] at ih ⊢; rw [hlen, ih]

/-! ### Claim theorems: rotation (C1, C3, C9) -/

/-- C1: rotation never unlinks a protected file. For every filesystem, size
limit and protect-set, every path in the protect-set that exists on disk
before `rotate_screenshots` still exists afterwards; in particular this
holds for the orchestrator's per-tick rotation call, whose protect-set is
the Pending Set (app.py:384-388), so a pending local file can only be
deleted by the Upload Batcher. -/
theorem c1_rotation_never_deletes_protected
    (fs : FS) (maxSizeMb : ℚ) (prot : List FPath) (p : FPath)
    (hp : p ∈ prot) (hex : pathExists fs p = true) :
    pathExists (rotate_screenshots fs maxSizeMb prot) p = true ∧
    pathExists (mainRotatePass fs maxSizeMb prot) p = true := by
  have key : pathExists (rotate_screenshots fs maxSizeMb prot) p = true := by
    rw [rotate_screenshots, rotateRun]
    by_cases h0 : maxSizeMb ≤ 0
    · simpa [if_pos h0]
    · by_cases h1 : get_folder_size_mb fs ≤ maxSizeMb
      · simpa [if_neg h0, if_pos h1]
      · simp only [if_neg h0, if_neg h1]
        rw [pathExists, findEntry_rotateLoop_protected maxSizeMb prot p hp (sortEntries fs) fs]
        exact hex
  exact ⟨key, key⟩

/-- Witness for C1: a 2 MiB protected file in a folder over a 1 MB limit
survives the rotation pass. -/
theorem c1_rotation_never_deletes_protected_witness :
    pathExists
      (rotate_screenshots [⟨⟨[], "a.png".data⟩, 2097152, 1⟩] 1 [⟨[], "a.png".data⟩])
      ⟨[], "a.png".data⟩ = true :=
  (c1_rotation_never_deletes_protected
    [⟨⟨[], "a.png".data⟩, 2097152, 1⟩] 1 [⟨[], "a.png".data⟩] ⟨[], "a.png".data⟩
    (by decide) (by decide)).1

/-- C3: `rotate_screenshots` terminates after at most as many deletion
iterations as there are enumerated files, and when it returns either the
folder size is at or below the limit or every non-protected file that the
pass enumerated (app.py:128, reached only when rotation is active) has
been removed; the size is recomputed after each deletion and the loop
stops as soon as it is at or below the limit. -/
theorem c3_rotation_terminates_bounded
    (fs : FS) (maxSizeMb : ℚ) (prot : List FPath) :
    (rotateRun fs maxSizeMb prot).dels ≤ fs.length ∧
    (get_folder_size_mb (rotateRun fs maxSizeMb prot).fs ≤ maxSizeMb ∨
      ∀ e ∈ rotateEnumerated fs maxSizeMb, ¬e.path ∈ prot →
        pathExists (rotateRun fs maxSizeMb prot).fs e.path = false) := by
  rw [rotateRun, rotateEnumerated]
  by_cases h0 : maxSizeMb ≤ 0
  · simp only [if_pos h0]
    exact ⟨Nat.zero_le _, Or.inr (by intro e he; cases he)⟩
  · by_cases h1 : get_folder_size_mb fs ≤ maxSizeMb
    · simp only [if_neg h0, if_pos h1]
      exact ⟨Nat.zero_le _, Or.inl h1⟩
    · simp only [if_neg h0, if_neg h1]
      have h := rotateLoop_spec maxSizeMb prot (sortEntries fs) fs
      exact ⟨le_trans h.1 (le_of_eq (length_sortEntries fs)), h.2⟩

/-- Witness for C3 at a concrete folder: one unprotected 2 MiB file over a
1 MB limit is deleted in one iteration and the folder ends under the limit. -/
theorem c3_rotation_terminates_bounded_witness :
    (rotateRun [⟨⟨[], "b.png".data⟩, 2097152, 1⟩] 1 []).dels ≤ 1 ∧
    (get_folder_size_mb (rotateRun [⟨⟨[], "b.png".data⟩, 2097152, 1⟩] 1 []).fs ≤ 1 ∨
      ∀ e ∈ rotateEnumerated [⟨⟨[], "b.png".data⟩, 2097152, 1⟩] 1, ¬e.path ∈ [] →
        pathExists (rotateRun [⟨⟨[], "b.png".data⟩, 2097152, 1⟩] 1 []).fs e.path = false) :=
  c3_rotation_terminates_bounded [⟨⟨[], "b.png".data⟩, 2097152, 1⟩] 1 []

/-- C9: rotation is a no-op whenever the limit is non-positive or the
current total size is already at or below the limit: the filesystem is
returned unchanged and no deletion is attempted. -/
theorem c9_rotation_noop
    (fs : FS) (maxSizeMb : ℚ) (prot : List FPath)
    (h : maxSizeMb ≤ 0 ∨ get_folder_size_mb fs ≤ maxSizeMb) :
    rotate_screenshots fs maxSizeMb prot = fs ∧
    (rotateRun fs maxSizeMb prot).dels = 0 := by
  rcases h with h0 | h1
  · simp only [rotate_screenshots, rotateRun, if_pos h0]
    exact ⟨trivial, trivial⟩
  · by_cases h0 : maxSizeMb ≤ 0
    · simp only [rotate_screenshots, rotateRun, if_pos h0]
      exact ⟨trivial, trivial⟩
    · simp only [rotate_screenshots, rotateRun, if_neg h0, if_pos h1]
      exact ⟨trivial, trivial⟩

/-- Witness for C9, the spec's scenario: empty root folder and
`max_folder_size_mb = 0` make rotation a no-op. -/
theorem c9_rotation_noop_witness :
    rotate_screenshots [] 0 [] = [] ∧ (rotateRun [] 0 []).dels = 0 :=
  c9_rotation_noop [] 0 [] (Or.inl (by decide))

/-! ### Helper lemmas about the day-key resolver -/

theorem digChar_isDigit (k : Nat) : (digChar k).isDigit = true := by
  unfold digChar
  split <;> decide

theorem digChar_ne_underscore (k : Nat) : ¬digChar k = '_' := by
  unfold digChar
  split <;> decide

theorem digVal_digChar : ∀ k < 10, digVal (digChar k) = k := by decide

theorem month2_pad : ∀ m < 13, 1 ≤ m → month2 (digChar (m / 10)) (digChar (m % 10)) = some m := by
  decide

theorem day2_pad : ∀ d < 32, 1 ≤ d → day2 (digChar (d / 10)) (digChar (d % 10)) = some d := by
  decide

theorem daysInMonth_le_31 (y m : Nat) : daysInMonth y m ≤ 31 := by
  unfold daysInMonth
  split_ifs <;> omega

theorem splitOnChar_ne_nil (sep : Char) (l : List Char) : ¬splitOnChar sep l = [] := by
  induction l with
  | nil => intro h; cases h
  | cons c cs ih =>
    rw [splitOnChar]
    by_cases hc : c = sep
    · rw [if_pos hc]; intro h; cases h
    · rw [if_neg hc]
      cases hs : splitOnChar sep cs with
      | nil => exact absurd hs ih
      | cons r rs => rw [List.modifyHead_cons]; intro h; cases h

theorem splitOnChar_no_sep (sep : Char) (l : List Char) (h : ¬sep ∈ l) :
    splitOnChar sep l = [l] := by
  induction l with
  | nil => rfl
  | cons c cs ih =>
    have hc : ¬c = sep := fun hx => h (hx ▸ List.mem_cons_self c cs)
    have hcs : ¬sep ∈ cs := fun hx => h (List.mem_cons_of_mem c hx)
    rw [splitOnChar, if_neg hc, ih hcs, List.modifyHead_cons]

theorem splitOnChar_append (sep : Char) (p rest : List Char) (h : ¬sep ∈ p) :
    splitOnChar sep (p ++ sep :: rest) = p :: splitOnChar sep rest := by
  induction p with
  | nil =>
    rw [List.nil_append, splitOnChar, if_pos rfl]
  | cons a p ih =>
    have ha : ¬a = sep := fun hx => h (hx ▸ List.mem_cons_self a p)
    have hp : ¬sep ∈ p := fun hx => h (List.mem_cons_of_mem a hx)
    rw [List.cons_append, splitOnChar, if_neg ha, ih hp, List.modifyHead_cons]

theorem strptimeYmd_pad (y m dd : Nat)
    (hy1 : 1 ≤ y) (hy2 : y ≤ 9999) (hm1 : 1 ≤ m) (hm2 : m ≤ 12)
    (hd1 : 1 ≤ dd) (hd2 : dd ≤ daysInMonth y m) :
    strptimeYmd ((pad4 y ++ pad2 m) ++ pad2 dd) = some ⟨y, m, dd⟩ := by
  have hd31 : dd ≤ 31 := le_trans hd2 (daysInMonth_le_31 y m)
  have e1 : y / 1000 < 10 := by omega
  have e2 : y / 100 % 10 < 10 := by omega
  have e3 : y / 10 % 10 < 10 := by omega
  have e4 : y % 10 < 10 := by omega
  simp only [pad4, pad2, List.cons_append, List.nil_append, strptimeYmd]
  rw [if_pos ⟨digChar_isDigit _, digChar_isDigit _, digChar_isDigit _, digChar_isDigit _⟩]
  simp only [parseMD]
  rw [month2_pad m (by omega) hm1, day2_pad dd (by omega) hd1]
  simp only [digVal_digChar _ e1, digVal_digChar _ e2, digVal_digChar _ e3, digVal_digChar _ e4]
  have hy : 1000 * (y / 1000) + 100 * (y / 100 % 10) + 10 * (y / 10 % 10) + y % 10 = y := by
    omega
  rw [hy, if_pos ⟨hy1, hd2⟩]

/-! ### Claim theorems: day-key resolution (C5, C8, C10) -/

/-- C5: day-key resolution is a pure function of the filename and the
file's stat result, and on every path whose filename holds no parseable
`YYYYMMDD` token in the second underscore-separated field it returns the
modification-time-derived key in `DD-MM-YYYY` format; the embedding is a
total function, so no exception is possible. -/
theorem c5_daykey_fallback_deterministic (d name : List Char) (mtDate : Date)
    (h : (splitOnChar '_' (stem name)).length < 2 ∨
      ∃ p1, (splitOnChar '_' (stem name)).get? 1 = some p1 ∧ strptimeYmd p1 = none) :
    get_day_folder_name_for_path ⟨d, name⟩ mtDate = strftimeDMY mtDate := by
  rcases hs : splitOnChar '_' (stem name) with _ | ⟨a, _ | ⟨p1, rest⟩⟩
  · simp only [get_day_folder_name_for_path, hs]
  · simp only [get_day_folder_name_for_path, hs]
  · rcases h with hlen | ⟨p1x, hget, hnone⟩
    · rw [hs] at hlen
      simp only [List.length_cons] at hlen
      omega
    · rw [hs] at hget
      have hp : p1x = p1 := by
        simp only [List.get?] at hget
        first
        | exact Option.some.inj hget
        | exact Option.some.inj hget.symm
      subst hp
      simp only [get_day_folder_name_for_path, hs, hnone]

/-- Witness for C5, the spec's scenario: `weird_name.png` with modification
date 2024-03-05 resolves to `05-03-2024`. -/
theorem c5_daykey_fallback_deterministic_witness :
    get_day_folder_name_for_path ⟨[], "weird_name.png".data⟩ ⟨2024, 3, 5⟩
      = "05-03-2024".data :=
  (c5_daykey_fallback_deterministic [] "weird_name.png".data ⟨2024, 3, 5⟩
    (Or.inr ⟨"name".data, by decide, by decide⟩)).trans (by decide)

/-- C8: a filename whose stem has the shape `pfx_YYYYMMDD_rest` with an
underscore-free front part and a valid embedded date resolves to that date
formatted `DD-MM-YYYY`, for every modification time — the filesystem is
never consulted on this branch. -/
theorem c8_daykey_from_filename (d name pfx rest : List Char) (y m dd : Nat)
    (mt mt' : Date)
    (hstem : stem name = pfx ++ '_' :: (((pad4 y ++ pad2 m) ++ pad2 dd) ++ '_' :: rest))
    (hpfx : '_' ∉ pfx)
    (hy1 : 1 ≤ y) (hy2 : y ≤ 9999) (hm1 : 1 ≤ m) (hm2 : m ≤ 12)
    (hd1 : 1 ≤ dd) (hd2 : dd ≤ daysInMonth y m) :
    get_day_folder_name_for_path ⟨d, name⟩ mt = strftimeDMY ⟨y, m, dd⟩ ∧
    get_day_folder_name_for_path ⟨d, name⟩ mt = get_day_folder_name_for_path ⟨d, name⟩ mt' := by
  have htok : '_' ∉ (pad4 y ++ pad2 m) ++ pad2 dd := by
    intro hmem
    simp only [pad4, pad2, List.mem_append, List.mem_cons, List.not_mem_nil, or_false] at hmem
    rcases hmem with (⟨h | h | h | h⟩ | h | h) | h | h <;>
      exact digChar_ne_underscore _ h.symm
  have hsplit : splitOnChar '_' (stem name)
      = pfx :: ((pad4 y ++ pad2 m) ++ pad2 dd) :: splitOnChar '_' rest := by
    rw [hstem, splitOnChar_append '_' pfx _ hpfx, splitOnChar_append '_' _ rest htok]
  have key : get_day_folder_name_for_path ⟨d, name⟩ mt = strftimeDMY ⟨y, m, dd⟩ := by
    simp only [get_day_folder_name_for_path, hsplit,
      strptimeYmd_pad y m dd hy1 hy2 hm1 hm2 hd1 hd2]
  have key' : get_day_folder_name_for_path ⟨d, name⟩ mt' = strftimeDMY ⟨y, m, dd⟩ := by
    simp only [get_day_folder_name_for_path, hsplit,
      strptimeYmd_pad y m dd hy1 hy2 hm1 hm2 hd1 hd2]
  exact ⟨key, key.trans key'.symm⟩

/-- Witness for C8, the spec's scenario: `screenshot_20251121_220005.png`
resolves to `21-11-2025` for an arbitrary modification time. -/
theorem c8_daykey_from_filename_witness :
    get_day_folder_name_for_path ⟨[], "screenshot_20251121_220005.png".data⟩ ⟨1970, 1, 1⟩
      = "21-11-2025".data :=
  ((c8_daykey_from_filename [] "screenshot_20251121_220005.png".data
    "screenshot".data "220005".data 2025 11 21 ⟨1970, 1, 1⟩ ⟨1999, 9, 9⟩
    (by decide) (by decide) (by decide) (by decide) (by decide) (by decide)
    (by decide) (by decide)).1).trans (by decide)

/-- C10: the filename date parse only needs the stem to split into at
least two underscore-separated fields with the second a `strptime`-valid
`YYYYMMDD` token — later fields are ignored, so a name with no third field
still parses — and when the stem has no underscore at all the parse is
never attempted (the split has a single field) and the fallback key is
returned directly. -/
theorem c10_second_field_only (d name : List Char) (mt : Date) :
    (∀ p1 dd, (splitOnChar '_' (stem name)).get? 1 = some p1 →
      strptimeYmd p1 = some dd →
      get_day_folder_name_for_path ⟨d, name⟩ mt = strftimeDMY dd) ∧
    ('_' ∉ stem name →
      get_day_folder_name_for_path ⟨d, name⟩ mt = strftimeDMY mt) := by
  constructor
  · intro p1 dd hget hsome
    rcases hs : splitOnChar '_' (stem name) with _ | ⟨a, _ | ⟨p1x, rest⟩⟩
    · rw [hs] at hget; cases hget
    · rw [hs] at hget; cases hget
    · rw [hs] at hget
      have hp : p1x = p1 := by
        simp only [List.get?] at hget
        first
        | exact Option.some.inj hget
        | exact Option.some.inj hget.symm
      subst hp
      simp only [get_day_folder_name_for_path, hs, hsome]
  · intro hno
    simp only [get_day_folder_name_for_path, splitOnChar_no_sep '_' (stem name) hno]

/-- Witness for C10: `prefix_20251121.png` has no third field yet resolves
to `21-11-2025` rather than the fallback. -/
theorem c10_second_field_only_witness :
    get_day_folder_name_for_path ⟨[], "prefix_20251121.png".data⟩ ⟨1970, 1, 1⟩
      = "21-11-2025".data :=
  ((c10_second_field_only [] "prefix_20251121.png".data ⟨1970, 1, 1⟩).1
    "20251121".data ⟨2025, 11, 21⟩ (by decide) (by decide)).trans (by decide)

/-! ### Helper lemmas about the remote folder cache -/

theorem ensure_fail (ops : MegaOps) (username day : List Char) (cache : Cache)
    (h1 : lookupA cache day = none) (h2 : failsFor ops username day) :
    ensure_mega_day_folder ops username day cache = ⟨none, cache, true⟩ := by
  cases hc : ops.createFolder (username ++ '/' :: day) with
  | none => simp [ensure_mega_day_folder, h1, hc]
  | some resp =>
    rcases h2 resp hc with hr | hr <;>
      simp [ensure_mega_day_folder, h1, hc, hr]

theorem ensure_cache_other (ops : MegaOps) (username dayq : List Char) (cache : Cache)
    (k : List Char) (h : ¬dayq = k) :
    lookupA (ensure_mega_day_folder ops username dayq cache).cache k = lookupA cache k := by
  cases h0 : lookupA cache dayq with
  | some nid => simp [ensure_mega_day_folder, h0]
  | none =>
    cases hc : ops.createFolder (username ++ '/' :: dayq) with
    | none => simp [ensure_mega_day_folder, h0, hc]
    | some resp =>
      cases hr : lookupA resp dayq with
      | none => simp [ensure_mega_day_folder, h0, hc, hr]
      | some nid =>
        by_cases hn : nid = []
        · simp [ensure_mega_day_folder, h0, hc, hr, hn]
        · simp [ensure_mega_day_folder, h0, hc, hr, hn, lookupA, h]

/-! ### Helper lemmas about the upload batcher -/

theorem uploadLoop_uploaded_sub (ops : MegaOps) (username : List Char) (ts : Int → Date) :
    ∀ (pending : List FPath) (fs : FS) (cache : Cache) (p : FPath),
      p ∈ (uploadLoop ops username ts pending fs cache).uploaded → p ∈ pending := by
  intro pending
  induction pending with
  | nil => intro fs cache p h; cases h
  | cons q rest ih =>
    intro fs cache p h
    cases hf : findEntry fs q with
    | none =>
      simp only [uploadLoop, hf] at h
      rcases List.mem_cons.mp h with rfl | h2
      · exact List.mem_cons_self _ rest
      · exact List.mem_cons_of_mem q (ih fs cache p h2)
    | some e =>
      cases hr : (ensure_mega_day_folder ops username
          (get_day_folder_name_for_path q (ts e.mtime)) cache).res with
      | none =>
        simp only [uploadLoop, hf, hr] at h
        exact List.mem_cons_of_mem q (ih fs _ p h)
      | some nid =>
        by_cases hu : ops.upload q nid = true
        · simp only [uploadLoop, hf, hr, if_pos hu] at h
          rcases List.mem_cons.mp h with rfl | h2
          · exact List.mem_cons_self _ rest
          · exact List.mem_cons_of_mem q (ih _ _ p h2)
        · simp only [uploadLoop, hf, hr, if_neg hu] at h
          exact List.mem_cons_of_mem q (ih fs _ p h)

theorem uploadLoop_fs_mono (ops : MegaOps) (username : List Char) (ts : Int → Date) :
    ∀ (pending : List FPath) (fs : FS) (cache : Cache) (q : FPath),
      pathExists (uploadLoop ops username ts pending fs cache).fs q = true →
      pathExists fs q = true := by
  intro pending
  induction pending with
  | nil => intro fs cache q h; exact h
  | cons r rest ih =>
    intro fs cache q h
    cases hf : findEntry fs r with
    | none =>
      simp only [uploadLoop, hf] at h
      exact ih fs cache q h
    | some e =>
      cases hr : (ensure_mega_day_folder ops username
          (get_day_folder_name_for_path r (ts e.mtime)) cache).res with
      | none =>
        simp only [uploadLoop, hf, hr] at h
        exact ih fs _ q h
      | some nid =>
        by_cases hu : ops.upload r nid = true
        · simp only [uploadLoop, hf, hr, if_pos hu] at h
          exact pathExists_unlinkFs_mono fs r q (ih _ _ q h)
        · simp only [uploadLoop, hf, hr, if_neg hu] at h
          exact ih fs _ q h

theorem uploadLoop_untouched (ops : MegaOps) (username : List Char) (ts : Int → Date) :
    ∀ (pending : List FPath) (fs : FS) (cache : Cache) (q : FPath),
      ¬q ∈ pending → pathExists fs q = true →
      pathExists (uploadLoop ops username ts pending fs cache).fs q = true := by
  intro pending
  induction pending with
  | nil => intro fs cache q _ h; exact h
  | cons r rest ih =>
    intro fs cache q hq h
    have hqr : ¬q = r := fun hx => hq (hx ▸ List.mem_cons_self r rest)
    have hqrest : ¬q ∈ rest := fun hx => hq (List.mem_cons_of_mem r hx)
    cases hf : findEntry fs r with
    | none =>
      simp only [uploadLoop, hf]
      exact ih fs cache q hqrest h
    | some e =>
      cases hr : (ensure_mega_day_folder ops username
          (get_day_folder_name_for_path r (ts e.mtime)) cache).res with
      | none =>
        simp only [uploadLoop, hf, hr]
        exact ih fs _ q hqrest h
      | some nid =>
        by_cases hu : ops.upload r nid = true
        · simp only [uploadLoop, hf, hr, if_pos hu]
          refine ih _ _ q hqrest ?_
          rwa [pathExists, findEntry_unlinkFs_ne fs r q hqr]
        · simp only [uploadLoop, hf, hr, if_neg hu]
          exact ih fs _ q hqrest h

theorem uploadLoop_mem_iff (ops : MegaOps) (username : List Char) (ts : Int → Date) :
    ∀ (pending : List FPath) (fs : FS) (cache : Cache) (p : FPath),
      p ∈ pending →
      (p ∈ (uploadLoop ops username ts pending fs cache).uploaded ↔
        pathExists (uploadLoop ops username ts pending fs cache).fs p = false) := by
  intro pending
  induction pending with
  | nil => intro fs cache p h; cases h
  | cons q rest ih =>
    intro fs cache p hp
    cases hf : findEntry fs q with
    | none =>
      simp only [uploadLoop, hf]
      by_cases hpq : p = q
      · subst hpq
        constructor
        · intro _
          cases hv : pathExists (uploadLoop ops username ts rest fs cache).fs p
          · rfl
          · have := uploadLoop_fs_mono ops username ts rest fs cache p hv
            rw [pathExists, hf] at this
            cases this
        · intro _
          exact List.mem_cons_self p _
      · have hprest : p ∈ rest := by
          rcases List.mem_cons.mp hp with h | h
          · exact absurd h hpq
          · exact h
        have hiff := ih fs cache p hprest
        constructor
        · intro hmem
          rcases List.mem_cons.mp hmem with h | h
          · exact absurd h hpq
          · exact hiff.mp h
        · intro hne
          exact List.mem_cons_of_mem q (hiff.mpr hne)
    | some e =>
      cases hr : (ensure_mega_day_folder ops username
          (get_day_folder_name_for_path q (ts e.mtime)) cache).res with
      | none =>
        simp only [uploadLoop, hf, hr]
        by_cases hprest : p ∈ rest
        · exact ih fs _ p hprest
        · have hpq : p = q := by
            rcases List.mem_cons.mp hp with h | h
            · exact h
            · exact absurd h hprest
          subst hpq
          constructor
          · intro hmem
            exact absurd (uploadLoop_uploaded_sub ops username ts rest fs _ p hmem) hprest
          · intro hne
            have hex : pathExists fs p = true := by rw [pathExists, hf]; rfl
            have hu2 := uploadLoop_untouched ops username ts rest fs
              (ensure_mega_day_folder ops username
                (get_day_folder_name_for_path p (ts e.mtime)) cache).cache p hprest hex
            rw [hu2] at hne
            cases hne
      | some nid =>
        by_cases hu : ops.upload q nid = true
        · simp only [uploadLoop, hf, hr, if_pos hu]
          by_cases hpq : p = q
          · subst hpq
            constructor
            · intro _
              cases hv : pathExists (uploadLoop ops username ts rest (unlinkFs fs p) _).fs p
              · rfl
              · have := uploadLoop_fs_mono ops username ts rest (unlinkFs fs p) _ p hv
                rw [pathExists, findEntry_unlinkFs_self] at this
                cases this
            · intro _
              exact List.mem_cons_self p _
          · have hprest : p ∈ rest := by
              rcases List.mem_cons.mp hp with h | h
              · exact absurd h hpq
              · exact h
            have hiff := ih (unlinkFs fs q)
              (ensure_mega_day_folder ops username
                (get_day_folder_name_for_path q (ts e.mtime)) cache).cache p hprest
            constructor
            · intro hmem
              rcases List.mem_cons.mp hmem with h | h
              · exact absurd h hpq
              · exact hiff.mp h
            · intro hne
              exact List.mem_cons_of_mem q (hiff.mpr hne)
        · simp only [uploadLoop, hf, hr, if_neg hu]
          by_cases hprest : p ∈ rest
          · exact ih fs _ p hprest
          · have hpq : p = q := by
              rcases List.mem_cons.mp hp with h | h
              · exact h
              · exact absurd h hprest
            subst hpq
            constructor
            · intro hmem
              exact absurd (uploadLoop_uploaded_sub ops username ts rest fs _ p hmem) hprest
            · intro hne
              have hex : pathExists fs p = true := by rw [pathExists, hf]; rfl
              have hu2 := uploadLoop_untouched ops username ts rest fs
                (ensure_mega_day_folder ops username
                  (get_day_folder_name_for_path p (ts e.mtime)) cache).cache p hprest hex
              rw [hu2] at hne
              cases hne

theorem uploadLoop_append (ops : MegaOps) (username : List Char) (ts : Int → Date) :
    ∀ (pre post : List FPath) (fs : FS) (cache : Cache),
      uploadLoop ops username ts (pre ++ post) fs cache =
        ⟨(uploadLoop ops username ts pre fs cache).uploaded ++
            (uploadLoop ops username ts post (uploadLoop ops username ts pre fs cache).fs
              (uploadLoop ops username ts pre fs cache).cache).uploaded,
          (uploadLoop ops username ts post (uploadLoop ops username ts pre fs cache).fs
            (uploadLoop ops username ts pre fs cache).cache).fs,
          (uploadLoop ops username ts post (uploadLoop ops username ts pre fs cache).fs
            (uploadLoop ops username ts pre fs cache).cache).cache⟩ := by
  intro pre
  induction pre with
  | nil => intro post fs cache; rfl
  | cons q rest ih =>
    intro post fs cache
    rw [List.cons_append]
    cases hf : findEntry fs q with
    | none =>
      simp only [uploadLoop, hf, ih post fs cache, List.cons_append]
    | some e =>
      cases hr : (ensure_mega_day_folder ops username
          (get_day_folder_name_for_path q (ts e.mtime)) cache).res with
      | none => simp only [uploadLoop, hf, hr, ih post fs _]
      | some nid =>
        by_cases hu : ops.upload q nid = true
        · simp only [uploadLoop, hf, hr, if_pos hu, ih post _ _, List.cons_append]
        · simp only [uploadLoop, hf, hr, if_neg hu, ih post fs _]

/-! ### Claim theorems: upload batcher and cache (C2, C4, C6, C7) -/

theorem uploadLoop_failing_key (ops : MegaOps) (username : List Char) (ts : Int → Date)
    (p : FPath) (e : FileEntry) (day : List Char)
    (hday : day = get_day_folder_name_for_path p (ts e.mtime))
    (hfail : failsFor ops username day) :
    ∀ (pending : List FPath) (fs : FS) (cache : Cache),
      findEntry fs p = some e → lookupA cache day = none →
      ¬p ∈ (uploadLoop ops username ts pending fs cache).uploaded ∧
      findEntry (uploadLoop ops username ts pending fs cache).fs p = some e ∧
      lookupA (uploadLoop ops username ts pending fs cache).cache day = none := by
  intro pending
  induction pending with
  | nil =>
    intro fs cache hf hc
    exact ⟨fun h => absurd h (List.not_mem_nil p), hf, hc⟩
  | cons q rest ih =>
    intro fs cache hf hc
    by_cases hqp : q = p
    · subst hqp
      have her : ensure_mega_day_folder ops username
          (get_day_folder_name_for_path q (ts e.mtime)) cache = ⟨none, cache, true⟩ := by
        rw [← hday]
        exact ensure_fail ops username day cache hc hfail
      simp only [uploadLoop, hf, her]
      exact ih fs cache hf hc
    · cases hfq : findEntry fs q with
      | none =>
        simp only [uploadLoop, hfq]
        obtain ⟨h1, h2, h3⟩ := ih fs cache hf hc
        refine ⟨?_, h2, h3⟩
        intro hmem
        rcases List.mem_cons.mp hmem with h | h
        · exact hqp h.symm
        · exact h1 h
      | some eq =>
        by_cases hdq : get_day_folder_name_for_path q (ts eq.mtime) = day
        · have her : ensure_mega_day_folder ops username
              (get_day_folder_name_for_path q (ts eq.mtime)) cache = ⟨none, cache, true⟩ := by
            rw [hdq]
            exact ensure_fail ops username day cache hc hfail
          simp only [uploadLoop, hfq, her]
          exact ih fs cache hf hc
        · have hco : lookupA (ensure_mega_day_folder ops username
              (get_day_folder_name_for_path q (ts eq.mtime)) cache).cache day
              = lookupA cache day :=
            ensure_cache_other ops username _ cache day hdq
          cases her : (ensure_mega_day_folder ops username
              (get_day_folder_name_for_path q (ts eq.mtime)) cache).res with
          | none =>
            simp only [uploadLoop, hfq, her]
            exact ih fs _ hf (by rw [hco]; exact hc)
          | some nid =>
            by_cases hu : ops.upload q nid = true
            · simp only [uploadLoop, hfq, her, if_pos hu]
              have hf2 : findEntry (unlinkFs fs q) p = some e := by
                rw [findEntry_unlinkFs_ne fs q p (fun h => hqp h.symm)]
                exact hf
              obtain ⟨h1, h2, h3⟩ := ih (unlinkFs fs q) _ hf2 (by rw [hco]; exact hc)
              refine ⟨?_, h2, h3⟩
              intro hmem
              rcases List.mem_cons.mp hmem with h | h
              · exact hqp h.symm
              · exact h1 h
            · simp only [uploadLoop, hfq, her, if_neg hu]
              exact ih fs _ hf (by rw [hco]; exact hc)

/-- C7: when the remote `create_folder` response carries no usable node id
for the requested day key and the key is not cached, `ensure_mega_day_folder`
returns a failure (`None`) with the cache left unmodified, and the Upload
Batcher then skips that artifact for the whole batch: it is not in the
returned list (so the orchestrator keeps it Pending for the next batch)
and its local file is untouched. -/
theorem c7_failed_folder_creation (ops : MegaOps) (username : List Char)
    (ts : Int → Date) (cache : Cache) (pending : List FPath) (fs : FS)
    (p : FPath) (e : FileEntry) (day : List Char)
    (h1 : lookupA cache day = none)
    (h2 : failsFor ops username day)
    (hday : day = get_day_folder_name_for_path p (ts e.mtime))
    (hf : findEntry fs p = some e) :
    ensure_mega_day_folder ops username day cache = ⟨none, cache, true⟩ ∧
    ¬p ∈ (uploadLoop ops username ts pending fs cache).uploaded ∧
    findEntry (uploadLoop ops username ts pending fs cache).fs p = some e :=
  ⟨ensure_fail ops username day cache h1 h2,
    (uploadLoop_failing_key ops username ts p e day hday h2 pending fs cache hf h1).1,
    (uploadLoop_failing_key ops username ts p e day hday h2 pending fs cache hf h1).2.1⟩

/-- Witness for C7: a remote client answering every `create_folder` with an
empty dict makes the batcher skip `d/c.png`, which stays on disk. -/
theorem c7_failed_folder_creation_witness :
    ensure_mega_day_folder witOpsFail "u".data "02-01-2025".data [] = ⟨none, [], true⟩ ∧
    ¬witC ∈ (uploadLoop witOpsFail "u".data witTs [witC] [⟨witC, 1, 3⟩] []).uploaded ∧
    findEntry (uploadLoop witOpsFail "u".data witTs [witC] [⟨witC, 1, 3⟩] []).fs witC
      = some ⟨witC, 1, 3⟩ :=
  c7_failed_folder_creation witOpsFail "u".data witTs [] [witC] [⟨witC, 1, 3⟩]
    witC ⟨witC, 1, 3⟩ "02-01-2025".data (by decide)
    (fun resp h => by
      have hx := Option.some.inj h
      subst hx
      exact Or.inl rfl)
    (by decide) (by decide)

/-- C2: the list returned by `upload_batch_to_mega` contains exactly those
pending artifacts that are absent from local disk when the call finishes —
i.e. each was either uploaded and then deleted during the call, or already
gone when processed (included without an upload attempt); artifacts whose
folder resolution or upload fails are excluded and survive on disk, and
processing is compositional, so one artifact's failure never aborts the
rest of the batch. -/
theorem c2_upload_batch_partial_failure (ops : MegaOps) (username : List Char)
    (cache : Cache) (pending : List FPath) (ts : Int → Date) (fs : FS) :
    (∀ p, p ∈ (upload_batch_to_mega (some ops) username cache pending ts fs).uploaded →
      p ∈ pending) ∧
    (∀ p, p ∈ pending →
      (p ∈ (upload_batch_to_mega (some ops) username cache pending ts fs).uploaded ↔
        pathExists (upload_batch_to_mega (some ops) username cache pending ts fs).fs p
          = false)) ∧
    (∀ p, p ∈ pending → pathExists fs p = false →
      p ∈ (upload_batch_to_mega (some ops) username cache pending ts fs).uploaded) ∧
    (∀ (pre post : List FPath) (fs2 : FS) (cache2 : Cache),
      uploadLoop ops username ts (pre ++ post) fs2 cache2 =
        ⟨(uploadLoop ops username ts pre fs2 cache2).uploaded ++
            (uploadLoop ops username ts post (uploadLoop ops username ts pre fs2 cache2).fs
              (uploadLoop ops username ts pre fs2 cache2).cache).uploaded,
          (uploadLoop ops username ts post (uploadLoop ops username ts pre fs2 cache2).fs
            (uploadLoop ops username ts pre fs2 cache2).cache).fs,
          (uploadLoop ops username ts post (uploadLoop ops username ts pre fs2 cache2).fs
            (uploadLoop ops username ts pre fs2 cache2).cache).cache⟩) := by
  by_cases hemp : pending = []
  · subst hemp
    refine ⟨?_, ?_, ?_,
      fun pre post fs2 cache2 => uploadLoop_append ops username ts pre post fs2 cache2⟩
    · intro p h
      simp [upload_batch_to_mega] at h
    · intro p hp; cases hp
    · intro p hp; cases hp
  · have hub : upload_batch_to_mega (some ops) username cache pending ts fs
        = uploadLoop ops username ts pending fs cache := by
      simp [upload_batch_to_mega, hemp]
    rw [hub]
    refine ⟨fun p h => uploadLoop_uploaded_sub ops username ts pending fs cache p h,
      fun p hp => uploadLoop_mem_iff ops username ts pending fs cache p hp, ?_,
      fun pre post fs2 cache2 => uploadLoop_append ops username ts pre post fs2 cache2⟩
    intro p hp hnex
    refine (uploadLoop_mem_iff ops username ts pending fs cache p hp).mpr ?_
    cases hv : pathExists (uploadLoop ops username ts pending fs cache).fs p with
    | false => rfl
    | true =>
      have hmono := uploadLoop_fs_mono ops username ts pending fs cache p hv
      rw [hnex] at hmono
      cases hmono

/-- Witness for C2: in the batch `[a, b, c]` the upload of `a` succeeds,
`b` is already gone from disk, and the upload of `c` raises: the returned
list is exactly `[a, b]` and `c` survives on disk. -/
theorem c2_upload_batch_partial_failure_witness :
    (upload_batch_to_mega (some witOpsPartial) "u".data [] [witA, witB, witC]
        witTs witFsAC).uploaded = [witA, witB] ∧
    (witC ∈ (upload_batch_to_mega (some witOpsPartial) "u".data [] [witA, witB, witC]
        witTs witFsAC).uploaded ↔
      pathExists (upload_batch_to_mega (some witOpsPartial) "u".data [] [witA, witB, witC]
        witTs witFsAC).fs witC = false) :=
  ⟨by decide,
    (c2_upload_batch_partial_failure witOpsPartial "u".data [] [witA, witB, witC]
      witTs witFsAC).2.1 witC (by decide)⟩

theorem runEnsures_count_zero (ops : MegaOps) (username k : List Char) :
    ∀ (keys : List (List Char)) (cache : Cache), ¬lookupA cache k = none →
      List.countP (fun t => decide (t.1 = k) && t.2)
        (runEnsures ops username keys cache).2 = 0 := by
  intro keys
  induction keys with
  | nil => intro cache _; rfl
  | cons q ks ih =>
    intro cache h
    cases h0 : lookupA cache q with
    | some nid =>
      have hr : ensure_mega_day_folder ops username q cache = ⟨some nid, cache, false⟩ := by
        simp [ensure_mega_day_folder, h0]
      have htr : (runEnsures ops username (q :: ks) cache).2
          = (runEnsures ops username ks cache).2 := by
        simp [runEnsures, hr]
      rw [htr]
      exact ih cache h
    | none =>
      cases hc : ops.createFolder (username ++ '/' :: q) with
      | none =>
        have hr : ensure_mega_day_folder ops username q cache = ⟨none, cache, true⟩ := by
          simp [ensure_mega_day_folder, h0, hc]
        have htr : (runEnsures ops username (q :: ks) cache).2
            = (q, false) :: (runEnsures ops username ks cache).2 := by
          simp [runEnsures, hr]
        rw [htr, List.countP_cons]
        simp only [Bool.and_false, if_false]
        exact ih cache h
      | some resp =>
        cases hrr : lookupA resp q with
        | none =>
          have hr : ensure_mega_day_folder ops username q cache = ⟨none, cache, true⟩ := by
            simp [ensure_mega_day_folder, h0, hc, hrr]
          have htr : (runEnsures ops username (q :: ks) cache).2
              = (q, false) :: (runEnsures ops username ks cache).2 := by
            simp [runEnsures, hr]
          rw [htr, List.countP_cons]
          simp only [Bool.and_false, if_false]
          exact ih cache h
        | some nid =>
          by_cases hn : nid = []
          · have hr : ensure_mega_day_folder ops username q cache = ⟨none, cache, true⟩ := by
              simp [ensure_mega_day_folder, h0, hc, hrr, hn]
            have htr : (runEnsures ops username (q :: ks) cache).2
                = (q, false) :: (runEnsures ops username ks cache).2 := by
              simp [runEnsures, hr]
            rw [htr, List.countP_cons]
            simp only [Bool.and_false, if_false]
            exact ih cache h
          · have hr : ensure_mega_day_folder ops username q cache
                = ⟨some nid, (q, nid) :: cache, true⟩ := by
              simp [ensure_mega_day_folder, h0, hc, hrr, hn]
            have htr : (runEnsures ops username (q :: ks) cache).2
                = (q, true) :: (runEnsures ops username ks ((q, nid) :: cache)).2 := by
              simp [runEnsures, hr]
            have hqk : ¬q = k := by
              intro hx
              rw [hx] at h0
              exact h (by rw [h0])
            have hck : ¬lookupA ((q, nid) :: cache) k = none := by
              rw [lookupA, if_neg hqk]
              exact h
            rw [htr, List.countP_cons]
            simp only [decide_eq_false hqk, Bool.false_and, if_false]
            exact ih ((q, nid) :: cache) hck

theorem runEnsures_count_le_one (ops : MegaOps) (username k : List Char) :
    ∀ (keys : List (List Char)) (cache : Cache),
      List.countP (fun t => decide (t.1 = k) && t.2)
        (runEnsures ops username keys cache).2 ≤ 1 := by
  intro keys
  induction keys with
  | nil => intro cache; exact Nat.zero_le 1
  | cons q ks ih =>
    intro cache
    cases h0 : lookupA cache q with
    | some nid =>
      have hr : ensure_mega_day_folder ops username q cache = ⟨some nid, cache, false⟩ := by
        simp [ensure_mega_day_folder, h0]
      have htr : (runEnsures ops username (q :: ks) cache).2
          = (runEnsures ops username ks cache).2 := by
        simp [runEnsures, hr]
      rw [htr]
      exact ih cache
    | none =>
      cases hc : ops.createFolder (username ++ '/' :: q) with
      | none =>
        have hr : ensure_mega_day_folder ops username q cache = ⟨none, cache, true⟩ := by
          simp [ensure_mega_day_folder, h0, hc]
        have htr : (runEnsures ops username (q :: ks) cache).2
            = (q, false) :: (runEnsures ops username ks cache).2 := by
          simp [runEnsures, hr]
        rw [htr, List.countP_cons]
        simp only [Bool.and_false, if_false]
        exact ih cache
      | some resp =>
        cases hrr : lookupA resp q with
        | none =>
          have hr : ensure_mega_day_folder ops username q cache = ⟨none, cache, true⟩ := by
            simp [ensure_mega_day_folder, h0, hc, hrr]
          have htr : (runEnsures ops username (q :: ks) cache).2
              = (q, false) :: (runEnsures ops username ks cache).2 := by
            simp [runEnsures, hr]
          rw [htr, List.countP_cons]
          simp only [Bool.and_false, if_false]
          exact ih cache
        | some nid =>
          by_cases hn : nid = []
          · have hr : ensure_mega_day_folder ops username q cache = ⟨none, cache, true⟩ := by
              simp [ensure_mega_day_folder, h0, hc, hrr, hn]
            have htr : (runEnsures ops username (q :: ks) cache).2
                = (q, false) :: (runEnsures ops username ks cache).2 := by
              simp [runEnsures, hr]
            rw [htr, List.countP_cons]
            simp only [Bool.and_false, if_false]
            exact ih cache
          · have hr : ensure_mega_day_folder ops username q cache
                = ⟨some nid, (q, nid) :: cache, true⟩ := by
              simp [ensure_mega_day_folder, h0, hc, hrr, hn]
            have htr : (runEnsures ops username (q :: ks) cache).2
                = (q, true) :: (runEnsures ops username ks ((q, nid) :: cache)).2 := by
              simp [runEnsures, hr]
            rw [htr, List.countP_cons]
            by_cases hqk : q = k
            · have hck : ¬lookupA ((q, nid) :: cache) k = none := by
                rw [lookupA, if_pos hqk]
                intro hx
                cases hx
              have hz := runEnsures_count_zero ops username k ks ((q, nid) :: cache) hck
              rw [hz]
              simp [hqk]
            · simp only [decide_eq_false hqk, Bool.false_and, if_false]
              exact ih ((q, nid) :: cache)

/-- C4 (amended): within one run, every key already present in the cache is
answered from the cache with no remote call, and for each distinct day key
at most one successful `create_folder` call ever happens across any call
sequence — once a creation succeeds the key is cached and never requested
again. (Failed creations leave the key uncached, so they can recur; the
original claim counted those too and is refuted by
`c4_at_most_one_call_counterexample`.) -/
theorem c4_at_most_one_successful_create (ops : MegaOps) (username : List Char)
    (keys : List (List Char)) (cache : Cache) (k : List Char) :
    (∀ nid, lookupA cache k = some nid →
      ensure_mega_day_folder ops username k cache = ⟨some nid, cache, false⟩) ∧
    List.countP (fun t => decide (t.1 = k) && t.2)
      (runEnsures ops username keys cache).2 ≤ 1 := by
  constructor
  · intro nid h
    simp [ensure_mega_day_folder, h]
  · exact runEnsures_count_le_one ops username k keys cache

/-- Counterexample for C4 as stated: with a remote client whose
`create_folder` responses never contain the day key, two calls for the same
key issue two remote `create_folder` calls, because a failed creation does
not populate the cache (that is exactly the retry behaviour C7 requires). -/
theorem c4_at_most_one_call_counterexample :
    ¬List.countP (fun t => decide (t.1 = "02-01-2025".data))
      (runEnsures witOpsFail "u".data
        ["02-01-2025".data, "02-01-2025".data] []).2 ≤ 1 := by
  decide

/-- Witness for C4: a cached key is returned without a remote call, and a
run that asks twice for the same key with a working remote client performs
exactly one successful creation. -/
theorem c4_at_most_one_successful_create_witness :
    ensure_mega_day_folder witOpsOk "u".data "02-01-2025".data
      [("02-01-2025".data, "n1".data)]
      = ⟨some "n1".data, [("02-01-2025".data, "n1".data)], false⟩ ∧
    List.countP (fun t => decide (t.1 = "02-01-2025".data) && t.2)
      (runEnsures witOpsOk "u".data
        ["02-01-2025".data, "02-01-2025".data] []).2 = 1 ∧
    List.countP (fun t => decide (t.1 = "02-01-2025".data) && t.2)
      (runEnsures witOpsOk "u".data
        ["02-01-2025".data, "02-01-2025".data] []).2 ≤ 1 :=
  ⟨(c4_at_most_one_successful_create witOpsOk "u".data [] [("02-01-2025".data, "n1".data)]
      "02-01-2025".data).1 "n1".data (by decide),
    by decide,
    (c4_at_most_one_successful_create witOpsOk "u".data
      ["02-01-2025".data, "02-01-2025".data] [] "02-01-2025".data).2⟩

/-- C6: the orchestrator invokes the Upload Batcher only when MEGA is
enabled and the Pending Set has at least `upload_batch_size` entries; when
the pass runs, exactly the returned artifacts are removed from the Pending
Set (the survivors keep their original order, being a sublist), and when it
does not run the Pending Set, filesystem and cache are untouched. -/
theorem c6_upload_trigger (megaEnabled : Bool) (batchSize : Nat)
    (login client : Option MegaOps) (username : List Char) (cache : Cache)
    (pending : List FPath) (ts : Int → Date) (fs : FS) :
    ((mainUploadStep megaEnabled batchSize login client username cache pending ts fs).ran
        = true →
      megaEnabled = true ∧ batchSize ≤ pending.length) ∧
    ((mainUploadStep megaEnabled batchSize login client username cache pending ts fs).ran
        = true →
      List.Sublist
        (mainUploadStep megaEnabled batchSize login client username cache pending ts fs).pending
        pending ∧
      ∀ p, (p ∈ (mainUploadStep megaEnabled batchSize login client username cache
          pending ts fs).pending ↔
        p ∈ pending ∧
          ¬p ∈ (mainUploadStep megaEnabled batchSize login client username cache
            pending ts fs).uploaded)) ∧
    ((mainUploadStep megaEnabled batchSize login client username cache pending ts fs).ran
        = false →
      (mainUploadStep megaEnabled batchSize login client username cache pending ts fs).pending
          = pending ∧
      (mainUploadStep megaEnabled batchSize login client username cache pending ts fs).fs
          = fs ∧
      (mainUploadStep megaEnabled batchSize login client username cache pending ts fs).cache
          = cache) := by
  by_cases hcond : megaEnabled = true ∧ batchSize ≤ pending.length
  · cases client with
    | none =>
      cases login with
      | none =>
        simp only [mainUploadStep, if_pos hcond]
        refine ⟨?_, ?_, ?_⟩
        · intro h; cases h
        · intro h; cases h
        · intro _
          refine ⟨?_, ?_, ?_⟩ <;> trivial
      | some ops =>
        simp only [mainUploadStep, if_pos hcond]
        refine ⟨?_, ?_, ?_⟩
        · intro _; exact hcond
        · intro _
          refine ⟨List.filter_sublist pending, ?_⟩
          intro p
          rw [List.mem_filter]
          simp only [decide_eq_true_eq]
        · intro h; cases h
    | some ops =>
      simp only [mainUploadStep, if_pos hcond]
      refine ⟨?_, ?_, ?_⟩
      · intro _; exact hcond
      · intro _
        refine ⟨List.filter_sublist pending, ?_⟩
        intro p
        rw [List.mem_filter]
        simp only [decide_eq_true_eq]
      · intro h; cases h
  · simp only [mainUploadStep, if_neg hcond]
    refine ⟨?_, ?_, ?_⟩
    · intro h; cases h
    · intro h; cases h
    · intro _
      refine ⟨?_, ?_, ?_⟩ <;> trivial

/-- Witness for C6, the spec's scenario: ten pending artifacts, batch size
ten, a valid session and all uploads succeeding empty the Pending Set and
delete all ten local files. -/
theorem c6_upload_trigger_witness :
    (mainUploadStep true 10 none (some witOpsOk) "u".data [] witPaths10 witTs witFs10).ran
        = true ∧
    (mainUploadStep true 10 none (some witOpsOk) "u".data [] witPaths10 witTs
        witFs10).pending = [] ∧
    (mainUploadStep true 10 none (some witOpsOk) "u".data [] witPaths10 witTs witFs10).fs
        = [] ∧
    (true = true ∧ 10 ≤ witPaths10.length) :=
  ⟨by decide, by decide, by decide,
    (c6_upload_trigger true 10 none (some witOpsOk) "u".data [] witPaths10 witTs
      witFs10).1 (by decide)⟩

end Shotlogger
